import Mathlib

/-!
Shallow embedding of `tensorflow_transform/beam/info_theory.py`.

The Python module computes, in exact real arithmetic terms:
  * `_logfactorial(m)` as `math.lgamma(m + 1)`, i.e. `ln Γ(m+1)`;
  * `_hypergeometric_pmf(n, x_i, y_j)`, a generator over the integer range
    `range(start, end + 1)` with `start = int(max(0, n-(n-x_i)-(n-y_j)))`,
    `end = int(min(x_i, y_j))`, yielding `(n_j, exp(numerator - denominator))`
    where the denominator is advanced incrementally after each yield;
  * `calculate_partial_mutual_information` and
    `calculate_partial_expected_mutual_information` on top of these.

Machine floats are idealized as real numbers; the Python `int()` truncation
toward zero is modelled by `truncInt`; the `0.0 / 0.0` `ZeroDivisionError`
in the EMI function is modelled by an `Option` result that is `none`
exactly when the accumulated probability mass is zero.
-/

noncomputable section

namespace InfoTheory

/-- Source function `_logfactorial(m)`: `math.lgamma(m + 1)`, i.e. `ln Γ(m+1)`
(`Real.log` already equals `ln ∘ abs` on negatives, matching `lgamma`). -/
def logfactorial (m : ℝ) : ℝ := Real.log (Real.Gamma (m + 1))

/-- Python `int()` applied to a real: truncation toward zero. -/
def truncInt (r : ℝ) : ℤ := if 0 ≤ r then ⌊r⌋ else ⌈r⌉

/-- Source local `start = int(max(0, n - (n - x_i) - (n - y_j)))` of `_hypergeometric_pmf`. -/
def pmfStart (n x_i y_j : ℝ) : ℤ := truncInt (max 0 (n - (n - x_i) - (n - y_j)))

/-- Source local `end = int(min(x_i, y_j))` of `_hypergeometric_pmf`. -/
def pmfEnd (n x_i y_j : ℝ) : ℤ := truncInt (min x_i y_j)

/-- The `numerator` local of `_hypergeometric_pmf`. -/
def hypergeomLogNumerator (n x_i y_j : ℝ) : ℝ :=
  logfactorial x_i + logfactorial y_j + logfactorial (n - x_i) + logfactorial (n - y_j)

/-- The `denominator` local of `_hypergeometric_pmf`, as a function of the
current support point `k` (the source initializes it at `k = start`). -/
def hypergeomLogDenominator (n x_i y_j k : ℝ) : ℝ :=
  logfactorial n + logfactorial k + logfactorial (x_i - k) + logfactorial (y_j - k) +
    logfactorial (n - x_i - y_j + k)

/-- The `for n_j in range(start, end + 1)` loop body of `_hypergeometric_pmf`:
yields `(n_j, exp(numerator - denominator))` and then advances the denominator
by `log(n_j+1) - log(x_i-n_j) - log(y_j-n_j) + log(n-x_i-y_j+n_j+1)`. -/
def pmfLoop (n x_i y_j numerator : ℝ) : ℕ → ℤ → ℝ → List (ℤ × ℝ)
  | 0, _, _ => []
  | steps + 1, n_j, denominator =>
      (n_j, Real.exp (numerator - denominator)) ::
        pmfLoop n x_i y_j numerator steps (n_j + 1)
          (denominator +
            (Real.log ((n_j : ℝ) + 1) - Real.log (x_i - (n_j : ℝ)) -
              Real.log (y_j - (n_j : ℝ)) + Real.log (n - x_i - y_j + (n_j : ℝ) + 1)))

/-- Source generator `_hypergeometric_pmf(n, x_i, y_j)` run to completion: the
finite sequence of
`(n_ij, p)` pairs it yields. -/
def hypergeometric_pmf (n x_i y_j : ℝ) : List (ℤ × ℝ) :=
  pmfLoop n x_i y_j (hypergeomLogNumerator n x_i y_j)
    (pmfEnd n x_i y_j - pmfStart n x_i y_j + 1).toNat
    (pmfStart n x_i y_j)
    (hypergeomLogDenominator n x_i y_j (pmfStart n x_i y_j))

/-- Source function `calculate_partial_mutual_information(n_ij, x_i, y_j, n)`. -/
def calculate_partial_mutual_information (n_ij x_i y_j n : ℝ) : ℝ :=
  if n_ij = 0 then 0
  else n_ij * ((Real.logb 2 n_ij + Real.logb 2 n) - (Real.logb 2 x_i + Real.logb 2 y_j))

/-- One iteration of the accumulation loop of
`calculate_partial_expected_mutual_information`: the pair is
`(partial_result, sum_probability)`. -/
def emiStep (coefficient : ℝ) (acc : ℝ × ℝ) (q : ℤ × ℝ) : ℝ × ℝ :=
  (if q.1 ≠ 0 then acc.1 + (q.1 : ℝ) * (coefficient + Real.logb 2 (q.1 : ℝ)) * q.2 else acc.1,
    acc.2 + q.2)

/-- Source function `calculate_partial_expected_mutual_information(n, x_i, y_j)`.
The final statement `partial_result / sum_probability` raises a Python
`ZeroDivisionError` when `sum_probability == 0.0`; that outcome is `none`. -/
def calculate_partial_expected_mutual_information (n x_i y_j : ℝ) : Option ℝ :=
  let coefficient := -Real.logb 2 x_i - Real.logb 2 y_j + Real.logb 2 n
  let acc := (hypergeometric_pmf n x_i y_j).foldl (emiStep coefficient) (0, 0)
  if acc.2 = 0 then none else some (acc.1 / acc.2)

/-- The realized total probability mass of the generated support. -/
def sum_probability (n x_i y_j : ℝ) : ℝ :=
  ((hypergeometric_pmf n x_i y_j).map Prod.snd).sum

/-- Modelled from the spec, section 4.3: one term
`(n_ij/n) * log2(n*n_ij/(x_i*y_j)) * p(n_ij)` of the specified EMI sum,
including its `1/n` factor. -/
def emiSpecTerm (n x_i y_j : ℝ) (q : ℤ × ℝ) : ℝ :=
  ((q.1 : ℝ) / n) * Real.logb 2 (n * (q.1 : ℝ) / (x_i * y_j)) * q.2

/-- Modelled from the spec, section 4.3: the EMI sum
`Σ_{n_ij} (n_ij/n) * log2(n*n_ij/(x_i*y_j)) * p(n_ij)` over the support the
generator produces. -/
def emiSpecSum (n x_i y_j : ℝ) : ℝ :=
  ((hypergeometric_pmf n x_i y_j).map (emiSpecTerm n x_i y_j)).sum

/-! ### Basic lemmas about the embedding -/

lemma pmfLoop_zero (n x y ν : ℝ) (k : ℤ) (d : ℝ) : pmfLoop n x y ν 0 k d = [] := rfl

lemma pmfLoop_succ (n x y ν : ℝ) (m : ℕ) (k : ℤ) (d : ℝ) :
    pmfLoop n x y ν (m + 1) k d =
      (k, Real.exp (ν - d)) ::
        pmfLoop n x y ν m (k + 1)
          (d + (Real.log ((k : ℝ) + 1) - Real.log (x - (k : ℝ)) -
            Real.log (y - (k : ℝ)) + Real.log (n - x - y + (k : ℝ) + 1))) := rfl

lemma truncInt_intCast (m : ℤ) : truncInt ((m : ℤ) : ℝ) = m := by
  unfold truncInt
  split <;> simp

lemma pmfLoop_length (n x y ν : ℝ) :
    ∀ (steps : ℕ) (k : ℤ) (d : ℝ), (pmfLoop n x y ν steps k d).length = steps := by
  intro steps
  induction steps with
  | zero => intro k d; rfl
  | succ m ih =>
      intro k d
      rw [pmfLoop_succ, List.length_cons, ih]

lemma pmfLoop_map_fst (n x y ν : ℝ) :
    ∀ (steps : ℕ) (k : ℤ) (d : ℝ),
      (pmfLoop n x y ν steps k d).map Prod.fst
        = (List.range steps).map (fun i : ℕ => k + (i : ℤ)) := by
  intro steps
  induction steps with
  | zero => intro k d; rfl
  | succ m ih =>
      intro k d
      rw [pmfLoop_succ, List.map_cons, ih, List.range_succ_eq_map, List.map_cons,
        List.map_map]
      refine congrArg₂ _ (by simp) ?_
      refine List.map_congr_left ?_
      intro i _
      simp only [Function.comp_apply]
      push_cast
      ring

lemma pmfLoop_fst_le (n x y ν : ℝ) :
    ∀ (steps : ℕ) (k : ℤ) (d : ℝ), ∀ q ∈ pmfLoop n x y ν steps k d, k ≤ q.1 := by
  intro steps
  induction steps with
  | zero => intro k d q hq; exact absurd hq (List.not_mem_nil q)
  | succ m ih =>
      intro k d q hq
      rw [pmfLoop_succ, List.mem_cons] at hq
      rcases hq with h | h
      · rw [h]
      · exact le_trans (by omega) (ih (k + 1) _ q h)

lemma pmfStart_nonneg (n x y : ℝ) : 0 ≤ pmfStart n x y := by
  unfold pmfStart truncInt
  rw [if_pos (le_max_left _ _)]
  exact Int.le_floor.mpr (by exact_mod_cast le_max_left _ _)

lemma pmfStart_cast_gt (n x y : ℝ) : x + y - n - 1 < ((pmfStart n x y : ℤ) : ℝ) := by
  unfold pmfStart truncInt
  rw [if_pos (le_max_left _ _)]
  have h1 : x + y - n ≤ max 0 (n - (n - x) - (n - y)) := by
    have h : n - (n - x) - (n - y) = x + y - n := by ring
    rw [h]
    exact le_max_right _ _
  have h2 := Int.sub_one_lt_floor (max 0 (n - (n - x) - (n - y)))
  linarith

lemma pmfEnd_cast_le_left (n x y : ℝ) (hx : 0 ≤ x) (hy : 0 ≤ y) :
    ((pmfEnd n x y : ℤ) : ℝ) ≤ x := by
  unfold pmfEnd truncInt
  rw [if_pos (le_min hx hy)]
  exact le_trans (Int.floor_le _) (min_le_left _ _)

lemma pmfEnd_cast_le_right (n x y : ℝ) (hx : 0 ≤ x) (hy : 0 ≤ y) :
    ((pmfEnd n x y : ℤ) : ℝ) ≤ y := by
  unfold pmfEnd truncInt
  rw [if_pos (le_min hx hy)]
  exact le_trans (Int.floor_le _) (min_le_right _ _)

/-! ### Log-factorial lemmas -/

lemma logfactorial_succ (m : ℝ) (hm : 0 < m) :
    logfactorial m = Real.log m + logfactorial (m - 1) := by
  unfold logfactorial
  rw [show m - 1 + 1 = m by ring, Real.Gamma_add_one hm.ne',
    Real.log_mul hm.ne' (Real.Gamma_pos_of_pos hm).ne']

lemma logfactorial_zero : logfactorial 0 = 0 := by
  unfold logfactorial
  rw [zero_add, Real.Gamma_one, Real.log_one]

lemma logfactorial_one : logfactorial 1 = 0 := by
  unfold logfactorial
  rw [show (1 : ℝ) + 1 = 2 by norm_num, Real.Gamma_two, Real.log_one]

lemma logfactorial_two : logfactorial 2 = Real.log 2 := by
  rw [logfactorial_succ 2 (by norm_num), show (2 : ℝ) - 1 = 1 by norm_num,
    logfactorial_one, add_zero]

/-- The incremental update of the `denominator` local matches a direct
re-evaluation of the five log-factorials at the next support point. -/
lemma denominator_step (n x y k : ℝ) (hk : 0 ≤ k) (hxk : k + 1 ≤ x) (hyk : k + 1 ≤ y)
    (hnk : 0 < n - x - y + k + 1) :
    hypergeomLogDenominator n x y (k + 1)
      = hypergeomLogDenominator n x y k +
        (Real.log (k + 1) - Real.log (x - k) - Real.log (y - k) +
          Real.log (n - x - y + k + 1)) := by
  unfold hypergeomLogDenominator
  have hA : logfactorial (k + 1) = Real.log (k + 1) + logfactorial k := by
    rw [logfactorial_succ (k + 1) (by linarith), show k + 1 - 1 = k by ring]
  have hB : logfactorial (x - k) = Real.log (x - k) + logfactorial (x - (k + 1)) := by
    rw [logfactorial_succ (x - k) (by linarith), show x - k - 1 = x - (k + 1) by ring]
  have hC : logfactorial (y - k) = Real.log (y - k) + logfactorial (y - (k + 1)) := by
    rw [logfactorial_succ (y - k) (by linarith), show y - k - 1 = y - (k + 1) by ring]
  have hD : logfactorial (n - x - y + (k + 1))
      = Real.log (n - x - y + k + 1) + logfactorial (n - x - y + k) := by
    rw [show n - x - y + (k + 1) = n - x - y + k + 1 by ring,
      logfactorial_succ (n - x - y + k + 1) hnk,
      show n - x - y + k + 1 - 1 = n - x - y + k by ring]
  linarith [hA, hB, hC, hD]

/-- Loop invariant: if the running denominator equals the closed form at the
current point and the loop stays inside `[start, end]`, every yielded
probability is `exp(numerator - closed-form denominator)` at its own point. -/
lemma pmfLoop_closed_form (n x y : ℝ) (hx : 0 ≤ x) (hy : 0 ≤ y) (ν : ℝ) :
    ∀ (steps : ℕ) (k : ℤ) (d : ℝ),
      pmfStart n x y ≤ k →
      k + steps ≤ pmfEnd n x y + 1 →
      d = hypergeomLogDenominator n x y (k : ℝ) →
      ∀ q ∈ pmfLoop n x y ν steps k d,
        q.2 = Real.exp (ν - hypergeomLogDenominator n x y (q.1 : ℝ)) := by
  intro steps
  induction steps with
  | zero => intro k d _ _ _ q hq; exact absurd hq (List.not_mem_nil q)
  | succ m ih =>
      intro k d hsk hke hd q hq
      rw [pmfLoop_succ, List.mem_cons] at hq
      rcases hq with h | h
      · rw [h, hd]
      · rcases m with _ | t
        · exact absurd h (List.not_mem_nil q)
        · refine ih (k + 1) _ (by omega) (by omega) ?_ q h
          have hk0 : (0 : ℝ) ≤ (k : ℝ) := by
            exact_mod_cast le_trans (pmfStart_nonneg n x y) hsk
          have hke' : ((k : ℝ) + 1) ≤ ((pmfEnd n x y : ℤ) : ℝ) := by
            exact_mod_cast (by omega : k + 1 ≤ pmfEnd n x y)
          have hxk : (k : ℝ) + 1 ≤ x := le_trans hke' (pmfEnd_cast_le_left n x y hx hy)
          have hyk : (k : ℝ) + 1 ≤ y := le_trans hke' (pmfEnd_cast_le_right n x y hx hy)
          have hsk' : ((pmfStart n x y : ℤ) : ℝ) ≤ (k : ℝ) := by exact_mod_cast hsk
          have hnk : 0 < n - x - y + (k : ℝ) + 1 := by
            have := pmfStart_cast_gt n x y
            linarith
          rw [hd, ← denominator_step n x y (k : ℝ) hk0 hxk hyk hnk]
          push_cast
          ring_nf

lemma hypergeometric_pmf_symm (n x y : ℝ) :
    hypergeometric_pmf n x y = hypergeometric_pmf n y x := by
  have hloop : ∀ (ν : ℝ) (steps : ℕ) (k : ℤ) (d : ℝ),
      pmfLoop n x y ν steps k d = pmfLoop n y x ν steps k d := by
    intro ν steps
    induction steps with
    | zero => intro k d; rfl
    | succ m ih =>
        intro k d
        rw [pmfLoop_succ, pmfLoop_succ]
        refine congrArg _ ?_
        rw [show d + (Real.log ((k : ℝ) + 1) - Real.log (x - (k : ℝ)) -
              Real.log (y - (k : ℝ)) + Real.log (n - x - y + (k : ℝ) + 1))
            = d + (Real.log ((k : ℝ) + 1) - Real.log (y - (k : ℝ)) -
              Real.log (x - (k : ℝ)) + Real.log (n - y - x + (k : ℝ) + 1)) by
          rw [show n - x - y + (k : ℝ) + 1 = n - y - x + (k : ℝ) + 1 by ring]
          ring]
        exact ih (k + 1) _
  have hstart : pmfStart n x y = pmfStart n y x := by
    unfold pmfStart
    rw [show n - (n - x) - (n - y) = n - (n - y) - (n - x) by ring]
  have hend : pmfEnd n x y = pmfEnd n y x := by
    unfold pmfEnd
    rw [min_comm]
  have hnum : hypergeomLogNumerator n x y = hypergeomLogNumerator n y x := by
    unfold hypergeomLogNumerator
    ring
  have hden : hypergeomLogDenominator n x y ((pmfStart n y x : ℤ) : ℝ)
      = hypergeomLogDenominator n y x ((pmfStart n y x : ℤ) : ℝ) := by
    unfold hypergeomLogDenominator
    rw [show n - x - y + ((pmfStart n y x : ℤ) : ℝ)
        = n - y - x + ((pmfStart n y x : ℤ) : ℝ) by ring]
    ring
  unfold hypergeometric_pmf
  rw [hstart, hend, hnum, hden, hloop]

/-- The accumulation loop of the EMI function, as sums over the yielded list. -/
lemma emi_foldl (c : ℝ) :
    ∀ (l : List (ℤ × ℝ)) (a b : ℝ),
      l.foldl (emiStep c) (a, b)
        = (a + (l.map (fun q => if q.1 = 0 then 0
              else (q.1 : ℝ) * (c + Real.logb 2 (q.1 : ℝ)) * q.2)).sum,
           b + (l.map Prod.snd).sum) := by
  intro l
  induction l with
  | nil => intro a b; simp
  | cons q t ih =>
      intro a b
      simp only [List.foldl_cons, emiStep, List.map_cons, List.sum_cons]
      rw [ih]
      simp only [Prod.mk.injEq]
      constructor
      · by_cases h : q.1 = 0
        · simp [h]
        · simp only [h, if_true, if_false, ne_eq, not_false_eq_true]
          ring
      · ring

/-- Closed description of `calculate_partial_expected_mutual_information`. -/
lemma emi_eq (n x y : ℝ) :
    calculate_partial_expected_mutual_information n x y
      = if sum_probability n x y = 0 then none
        else some (((hypergeometric_pmf n x y).map (fun q => if q.1 = 0 then 0
              else (q.1 : ℝ) * ((-Real.logb 2 x - Real.logb 2 y + Real.logb 2 n)
                + Real.logb 2 (q.1 : ℝ)) * q.2)).sum
          / sum_probability n x y) := by
  simp only [calculate_partial_expected_mutual_information]
  rw [emi_foldl]
  simp only [zero_add, sum_probability]

/-! First claims: the MI function. -/

/-- C5: for every `x_i`, `y_j`, `n`, `partial_mutual_information(0, x_i, y_j, n)`
returns exactly `0` (the `n_ij == 0` branch short-circuits, so no logarithm of
`0` enters the result, whatever the other arguments are). -/
theorem pmi_zero_of_zero_count (x_i y_j n : ℝ) :
    calculate_partial_mutual_information 0 x_i y_j n = 0 := if_pos rfl

/-- C2: for `n_ij ≠ 0`, `x_i > 0`, `y_j > 0`, `n > 0`, the MI function equals
`n_ij * (log2(n_ij*n) - log2(x_i*y_j))`, the direct closed form. -/
theorem pmi_closed_form (n_ij x_i y_j n : ℝ) (hij : n_ij ≠ 0)
    (hx : 0 < x_i) (hy : 0 < y_j) (hn : 0 < n) :
    calculate_partial_mutual_information n_ij x_i y_j n
      = n_ij * (Real.logb 2 (n_ij * n) - Real.logb 2 (x_i * y_j)) := by
  unfold calculate_partial_mutual_information
  rw [if_neg hij, Real.logb_mul hij hn.ne', Real.logb_mul hx.ne' hy.ne']

theorem pmi_closed_form_witness :
    (1 : ℝ) ≠ 0 ∧ (0 : ℝ) < 2 ∧ (0 : ℝ) < 3 ∧ (0 : ℝ) < 6 ∧
      calculate_partial_mutual_information 1 2 3 6
        = 1 * (Real.logb 2 (1 * 6) - Real.logb 2 (2 * 3)) :=
  ⟨by norm_num, by norm_num, by norm_num, by norm_num,
    pmi_closed_form 1 2 3 6 (by norm_num) (by norm_num) (by norm_num) (by norm_num)⟩

/-- C9: both functions are deterministic: calls with identical inputs give
identical results (the embedding is a pure function of the arguments, mirroring
the absence of hidden state in the source). -/
theorem info_theory_deterministic (n_ij x_i y_j n n_ij' x_i' y_j' n' : ℝ)
    (h1 : n_ij = n_ij') (h2 : x_i = x_i') (h3 : y_j = y_j') (h4 : n = n') :
    calculate_partial_mutual_information n_ij x_i y_j n
        = calculate_partial_mutual_information n_ij' x_i' y_j' n'
    ∧ calculate_partial_expected_mutual_information n x_i y_j
        = calculate_partial_expected_mutual_information n' x_i' y_j' := by
  subst h1; subst h2; subst h3; subst h4
  exact ⟨rfl, rfl⟩

theorem info_theory_deterministic_witness :
    (1 : ℝ) = 1 ∧ (2 : ℝ) = 2 ∧ (3 : ℝ) = 3 ∧ (7 : ℝ) = 7 ∧
      (calculate_partial_mutual_information 1 2 3 7
          = calculate_partial_mutual_information 1 2 3 7
        ∧ calculate_partial_expected_mutual_information 7 2 3
          = calculate_partial_expected_mutual_information 7 2 3) :=
  ⟨rfl, rfl, rfl, rfl, info_theory_deterministic 1 2 3 7 1 2 3 7 rfl rfl rfl rfl⟩

/-- C4: every probability yielded by the generator — the first computed
directly from the five log-factorials at `start`, the later ones through the
incremental `log_denominator` recurrence — equals
`exp(log_numerator - log_denominator(n_ij))` with the closed-form
five-log-factorial denominator evaluated at that `n_ij`. -/
theorem pmf_incremental_eq_closed_form (n x_i y_j : ℝ) (hx : 0 ≤ x_i) (hy : 0 ≤ y_j)
    (q : ℤ × ℝ) (hq : q ∈ hypergeometric_pmf n x_i y_j) :
    q.2 = Real.exp (hypergeomLogNumerator n x_i y_j
      - hypergeomLogDenominator n x_i y_j (q.1 : ℝ)) := by
  unfold hypergeometric_pmf at hq
  by_cases hse : pmfEnd n x_i y_j - pmfStart n x_i y_j + 1 ≤ 0
  · rw [Int.toNat_of_nonpos hse, pmfLoop_zero] at hq
    exact absurd hq (List.not_mem_nil q)
  · exact pmfLoop_closed_form n x_i y_j hx hy _ _ _ _ le_rfl (by omega) rfl q hq

/-- C7: the partial EMI is symmetric in its two marginal arguments. -/
theorem emi_symmetric (n x_i y_j : ℝ) :
    calculate_partial_expected_mutual_information n x_i y_j
      = calculate_partial_expected_mutual_information n y_j x_i := by
  simp only [calculate_partial_expected_mutual_information]
  rw [hypergeometric_pmf_symm n x_i y_j,
    show -Real.logb 2 x_i - Real.logb 2 y_j + Real.logb 2 n
      = -Real.logb 2 y_j - Real.logb 2 x_i + Real.logb 2 n by ring]

/-! ### A fully evaluated run: `n = 2`, `x_i = 1`, `y_j = 1` -/

lemma pmfStart_two_one_one : pmfStart 2 1 1 = 0 := by
  unfold pmfStart
  rw [show max (0 : ℝ) (2 - (2 - 1) - (2 - 1)) = (((0 : ℤ) : ℤ) : ℝ) by norm_num]
  exact truncInt_intCast 0

lemma pmfEnd_two_one_one : pmfEnd 2 1 1 = 1 := by
  unfold pmfEnd
  rw [show min (1 : ℝ) 1 = (((1 : ℤ) : ℤ) : ℝ) by norm_num]
  exact truncInt_intCast 1

lemma numerator_two_one_one : hypergeomLogNumerator 2 1 1 = 0 := by
  unfold hypergeomLogNumerator
  rw [show (2 : ℝ) - 1 = 1 by norm_num, logfactorial_one]
  ring

lemma denominator_two_one_one_zero :
    hypergeomLogDenominator 2 1 1 (((0 : ℤ) : ℤ) : ℝ) = Real.log 2 := by
  unfold hypergeomLogDenominator
  rw [show (((0 : ℤ) : ℤ) : ℝ) = 0 by norm_num, show (1 : ℝ) - 0 = 1 by norm_num,
    show (2 : ℝ) - 1 - 1 + 0 = 0 by norm_num, logfactorial_zero, logfactorial_one,
    logfactorial_two]
  ring

lemma pmf_two_one_one :
    hypergeometric_pmf 2 1 1 = [((0 : ℤ), 1 / 2), ((1 : ℤ), 1 / 2)] := by
  have hexp : Real.exp (-Real.log 2) = 1 / 2 := by
    rw [Real.exp_neg, Real.exp_log (by norm_num : (0 : ℝ) < 2)]
    norm_num
  unfold hypergeometric_pmf
  rw [pmfStart_two_one_one, pmfEnd_two_one_one,
    show ((1 : ℤ) - 0 + 1).toNat = 0 + 1 + 1 by rfl,
    pmfLoop_succ, pmfLoop_succ, pmfLoop_zero, numerator_two_one_one,
    denominator_two_one_one_zero]
  norm_num [Real.log_one, hexp]

theorem pmf_incremental_eq_closed_form_witness :
    (0 : ℝ) ≤ 1 ∧ ((1 : ℤ), (1 / 2 : ℝ)) ∈ hypergeometric_pmf 2 1 1 ∧
      (((1 : ℤ), (1 / 2 : ℝ)) : ℤ × ℝ).2
        = Real.exp (hypergeomLogNumerator 2 1 1
            - hypergeomLogDenominator 2 1 1 (((((1 : ℤ), (1 / 2 : ℝ)) : ℤ × ℝ).1 : ℤ) : ℝ)) :=
  ⟨by norm_num, by rw [pmf_two_one_one]; simp,
    pmf_incremental_eq_closed_form 2 1 1 (by norm_num) (by norm_num)
      ((1 : ℤ), (1 / 2 : ℝ)) (by rw [pmf_two_one_one]; simp)⟩

lemma hypergeometric_pmf_fst_nonneg (n x y : ℝ) (q : ℤ × ℝ)
    (hq : q ∈ hypergeometric_pmf n x y) : 0 ≤ q.1 := by
  unfold hypergeometric_pmf at hq
  exact le_trans (pmfStart_nonneg n x y) (pmfLoop_fst_le n x y _ _ _ _ q hq)

/-- On a support point `n_ij ≥ 0`, the term accumulated by the loop equals `n`
times the term `(n_ij/n) * log2(n*n_ij/(x_i*y_j)) * p` given in the spec. -/
lemma emi_term_eq (n x y : ℝ) (hn : 0 < n) (hx : 0 < x) (hy : 0 < y)
    (q : ℤ × ℝ) (hq : 0 ≤ q.1) :
    (if q.1 = 0 then 0
      else (q.1 : ℝ) * ((-Real.logb 2 x - Real.logb 2 y + Real.logb 2 n)
        + Real.logb 2 (q.1 : ℝ)) * q.2)
      = n * emiSpecTerm n x y q := by
  unfold emiSpecTerm
  rcases eq_or_lt_of_le hq with h0 | hpos
  · rw [if_pos h0.symm, ← h0]
    norm_num
  · have hq1 : ((q.1 : ℤ) : ℝ) ≠ 0 := by
      have h : (0 : ℝ) < ((q.1 : ℤ) : ℝ) := by exact_mod_cast hpos
      exact h.ne'
    rw [if_neg hpos.ne',
      Real.logb_div (mul_ne_zero hn.ne' hq1) (mul_ne_zero hx.ne' hy.ne'),
      Real.logb_mul hn.ne' hq1, Real.logb_mul hx.ne' hy.ne']
    have h1 : ((q.1 : ℤ) : ℝ) / n
          * ((Real.logb 2 n + Real.logb 2 ((q.1 : ℤ) : ℝ))
            - (Real.logb 2 x + Real.logb 2 y)) * q.2
        = ((q.1 : ℤ) : ℝ)
          * ((Real.logb 2 n + Real.logb 2 ((q.1 : ℤ) : ℝ))
            - (Real.logb 2 x + Real.logb 2 y)) * q.2 / n := by
      ring
    rw [h1, mul_div_cancel₀ _ hn.ne']
    ring

/-- C1 (amended): with the accumulation the loop performs, the return value is
the specified Σ *without* its `1/n` factor (equivalently `n` times that Σ),
divided by the realized probability mass. -/
theorem emi_returns_normalized_sum (n x_i y_j : ℝ) (hn : 0 < n) (hx : 0 < x_i)
    (hy : 0 < y_j) (hs : sum_probability n x_i y_j ≠ 0) :
    calculate_partial_expected_mutual_information n x_i y_j
      = some (n * emiSpecSum n x_i y_j / sum_probability n x_i y_j) := by
  rw [emi_eq, if_neg hs]
  have h : ((hypergeometric_pmf n x_i y_j).map (fun q => if q.1 = 0 then 0
        else (q.1 : ℝ) * ((-Real.logb 2 x_i - Real.logb 2 y_j + Real.logb 2 n)
          + Real.logb 2 (q.1 : ℝ)) * q.2)).sum
      = n * emiSpecSum n x_i y_j := by
    unfold emiSpecSum
    rw [← List.sum_map_mul_left]
    refine congrArg List.sum (List.map_congr_left ?_)
    intro q hq
    exact emi_term_eq n x_i y_j hn hx hy q (hypergeometric_pmf_fst_nonneg n x_i y_j q hq)
  rw [h]

lemma sum_probability_two_one_one : sum_probability 2 1 1 = 1 := by
  simp only [sum_probability, pmf_two_one_one]
  norm_num

theorem emi_returns_normalized_sum_witness :
    (0 : ℝ) < 2 ∧ (0 : ℝ) < 1 ∧ (0 : ℝ) < 1 ∧ sum_probability 2 1 1 ≠ 0 ∧
      calculate_partial_expected_mutual_information 2 1 1
        = some (2 * emiSpecSum 2 1 1 / sum_probability 2 1 1) :=
  ⟨by norm_num, by norm_num, by norm_num, by rw [sum_probability_two_one_one]; norm_num,
    emi_returns_normalized_sum 2 1 1 (by norm_num) (by norm_num) (by norm_num)
      (by rw [sum_probability_two_one_one]; norm_num)⟩

/-- C1 as literally stated is false: at `n = 2`, `x_i = y_j = 1` the function
returns `1/2`, while the specified Σ (with its `1/n` factor; here the PMF sums to
exactly `1`) evaluates to `1/4`. -/
theorem emi_spec_formula_counterexample :
    calculate_partial_expected_mutual_information 2 1 1 ≠ some (emiSpecSum 2 1 1) := by
  have hlhs : calculate_partial_expected_mutual_information 2 1 1 = some (1 / 2) := by
    rw [emi_eq, sum_probability_two_one_one, if_neg (by norm_num), pmf_two_one_one]
    norm_num [Real.logb_self_eq_one (by norm_num : (1 : ℝ) < 2)]
  have hrhs : emiSpecSum 2 1 1 = 1 / 4 := by
    simp only [emiSpecSum, pmf_two_one_one]
    norm_num [emiSpecTerm, Real.logb_self_eq_one (by norm_num : (1 : ℝ) < 2)]
  rw [hlhs, hrhs]
  norm_num

/-! ### Integral inputs: the truncated bounds are the exact formulas -/

lemma pmfStart_natCast (n x y : ℕ) :
    pmfStart (n : ℝ) (x : ℝ) (y : ℝ) = max 0 ((x : ℤ) + (y : ℤ) - (n : ℤ)) := by
  unfold pmfStart
  have h1 : max (0 : ℝ) ((n : ℝ) - ((n : ℝ) - (x : ℝ)) - ((n : ℝ) - (y : ℝ)))
      = ((max 0 ((x : ℤ) + (y : ℤ) - (n : ℤ)) : ℤ) : ℝ) := by
    push_cast
    rw [show (n : ℝ) - ((n : ℝ) - (x : ℝ)) - ((n : ℝ) - (y : ℝ))
        = (x : ℝ) + (y : ℝ) - (n : ℝ) by ring]
  rw [h1, truncInt_intCast]

lemma pmfEnd_natCast (n x y : ℕ) :
    pmfEnd (n : ℝ) (x : ℝ) (y : ℝ) = min (x : ℤ) (y : ℤ) := by
  unfold pmfEnd
  have h1 : min ((x : ℕ) : ℝ) ((y : ℕ) : ℝ) = ((min (x : ℤ) (y : ℤ) : ℤ) : ℝ) := by
    push_cast
    rfl
  rw [h1, truncInt_intCast]

/-- C3: for integral counts with `x_i ≤ n` and `y_j ≤ n`, the `start` of the
generator is `max(0, x_i + y_j - n)`, its output has length `end - start + 1`
with `end = min(x_i, y_j)`, and its support points are exactly
`start, start+1, …, end` in strictly increasing order. -/
theorem pmf_support_enumeration (n x_i y_j : ℕ) (hx : x_i ≤ n) (hy : y_j ≤ n) :
    pmfStart (n : ℝ) (x_i : ℝ) (y_j : ℝ) = max 0 ((x_i : ℤ) + (y_j : ℤ) - (n : ℤ))
    ∧ ((hypergeometric_pmf (n : ℝ) (x_i : ℝ) (y_j : ℝ)).length : ℤ)
        = min (x_i : ℤ) (y_j : ℤ) - max 0 ((x_i : ℤ) + (y_j : ℤ) - (n : ℤ)) + 1
    ∧ (hypergeometric_pmf (n : ℝ) (x_i : ℝ) (y_j : ℝ)).map Prod.fst
        = (List.range (min (x_i : ℤ) (y_j : ℤ)
              - max 0 ((x_i : ℤ) + (y_j : ℤ) - (n : ℤ)) + 1).toNat).map
            (fun i : ℕ => max 0 ((x_i : ℤ) + (y_j : ℤ) - (n : ℤ)) + (i : ℤ)) := by
  have hs := pmfStart_natCast n x_i y_j
  have he := pmfEnd_natCast n x_i y_j
  refine ⟨hs, ?_, ?_⟩
  · unfold hypergeometric_pmf
    rw [pmfLoop_length, hs, he]
    omega
  · unfold hypergeometric_pmf
    rw [pmfLoop_map_fst, hs, he]

theorem pmf_support_enumeration_witness :
    2 ≤ 4 ∧ 3 ≤ 4 ∧
      (pmfStart ((4 : ℕ) : ℝ) ((2 : ℕ) : ℝ) ((3 : ℕ) : ℝ)
          = max 0 (((2 : ℕ) : ℤ) + ((3 : ℕ) : ℤ) - ((4 : ℕ) : ℤ))
        ∧ ((hypergeometric_pmf ((4 : ℕ) : ℝ) ((2 : ℕ) : ℝ) ((3 : ℕ) : ℝ)).length : ℤ)
            = min ((2 : ℕ) : ℤ) ((3 : ℕ) : ℤ)
              - max 0 (((2 : ℕ) : ℤ) + ((3 : ℕ) : ℤ) - ((4 : ℕ) : ℤ)) + 1
        ∧ (hypergeometric_pmf ((4 : ℕ) : ℝ) ((2 : ℕ) : ℝ) ((3 : ℕ) : ℝ)).map Prod.fst
            = (List.range (min ((2 : ℕ) : ℤ) ((3 : ℕ) : ℤ)
                  - max 0 (((2 : ℕ) : ℤ) + ((3 : ℕ) : ℤ) - ((4 : ℕ) : ℤ)) + 1).toNat).map
                (fun i : ℕ => max 0 (((2 : ℕ) : ℤ) + ((3 : ℕ) : ℤ) - ((4 : ℕ) : ℤ)) + (i : ℤ))) :=
  ⟨by norm_num, by norm_num, pmf_support_enumeration 4 2 3 (by norm_num) (by norm_num)⟩

/-- C8: when `start > end` (possible only for degenerate inputs), the generator
yields the empty sequence and the realized probability mass is `0`. -/
theorem pmf_empty_of_start_gt_end (n x_i y_j : ℕ)
    (h : min (x_i : ℤ) (y_j : ℤ) < max 0 ((x_i : ℤ) + (y_j : ℤ) - (n : ℤ))) :
    hypergeometric_pmf (n : ℝ) (x_i : ℝ) (y_j : ℝ) = []
    ∧ sum_probability (n : ℝ) (x_i : ℝ) (y_j : ℝ) = 0 := by
  have hs := pmfStart_natCast n x_i y_j
  have he := pmfEnd_natCast n x_i y_j
  have h1 : hypergeometric_pmf (n : ℝ) (x_i : ℝ) (y_j : ℝ) = [] := by
    unfold hypergeometric_pmf
    rw [hs, he, show (min (x_i : ℤ) (y_j : ℤ)
        - max 0 ((x_i : ℤ) + (y_j : ℤ) - (n : ℤ)) + 1).toNat = 0 by omega, pmfLoop_zero]
  exact ⟨h1, by simp only [sum_probability, h1, List.map_nil, List.sum_nil]⟩

theorem pmf_empty_of_start_gt_end_witness :
    min ((5 : ℕ) : ℤ) ((2 : ℕ) : ℤ) < max 0 (((5 : ℕ) : ℤ) + ((2 : ℕ) : ℤ) - ((4 : ℕ) : ℤ))
    ∧ (hypergeometric_pmf ((4 : ℕ) : ℝ) ((5 : ℕ) : ℝ) ((2 : ℕ) : ℝ) = []
      ∧ sum_probability ((4 : ℕ) : ℝ) ((5 : ℕ) : ℝ) ((2 : ℕ) : ℝ) = 0) :=
  ⟨by norm_num, pmf_empty_of_start_gt_end 4 5 2 (by norm_num)⟩

/-- C10: when the truncated support is empty, the EMI loop accumulates
nothing, `sum_probability` stays `0.0`, and the final division raises
(`none` in this embedding) instead of returning a value. -/
theorem emi_none_of_empty_support (n x_i y_j : ℝ)
    (h : pmfEnd n x_i y_j < pmfStart n x_i y_j) :
    hypergeometric_pmf n x_i y_j = [] ∧ sum_probability n x_i y_j = 0
    ∧ calculate_partial_expected_mutual_information n x_i y_j = none := by
  have h1 : hypergeometric_pmf n x_i y_j = [] := by
    unfold hypergeometric_pmf
    rw [show (pmfEnd n x_i y_j - pmfStart n x_i y_j + 1).toNat = 0 by omega, pmfLoop_zero]
  have h2 : sum_probability n x_i y_j = 0 := by
    simp only [sum_probability, h1, List.map_nil, List.sum_nil]
  exact ⟨h1, h2, by rw [emi_eq, h2, if_pos rfl]⟩

lemma pmfStart_four_five_two : pmfStart 4 5 2 = 3 := by
  unfold pmfStart
  rw [show max (0 : ℝ) (4 - (4 - 5) - (4 - 2)) = (((3 : ℤ) : ℤ) : ℝ) by norm_num]
  exact truncInt_intCast 3

lemma pmfEnd_four_five_two : pmfEnd 4 5 2 = 2 := by
  unfold pmfEnd
  rw [show min (5 : ℝ) 2 = (((2 : ℤ) : ℤ) : ℝ) by norm_num]
  exact truncInt_intCast 2

theorem emi_none_of_empty_support_witness :
    pmfEnd 4 5 2 < pmfStart 4 5 2
    ∧ (hypergeometric_pmf 4 5 2 = [] ∧ sum_probability 4 5 2 = 0
      ∧ calculate_partial_expected_mutual_information 4 5 2 = none) :=
  ⟨by rw [pmfEnd_four_five_two, pmfStart_four_five_two]; norm_num,
    emi_none_of_empty_support 4 5 2
      (by rw [pmfEnd_four_five_two, pmfStart_four_five_two]; norm_num)⟩

/-! ### The boundary case `x_i == n` -/

/-- With integral counts and `x_i = n`, the support collapses to the single
point `y_j`, whose probability is exactly `1`. -/
lemma hypergeometric_pmf_x_eq_n (n y : ℕ) (hy : 0 < y) (hyn : y ≤ n) :
    hypergeometric_pmf (n : ℝ) (n : ℝ) (y : ℝ) = [((y : ℤ), 1)] := by
  have hs : pmfStart (n : ℝ) (n : ℝ) (y : ℝ) = (y : ℤ) := by
    rw [pmfStart_natCast]
    omega
  have he : pmfEnd (n : ℝ) (n : ℝ) (y : ℝ) = (y : ℤ) := by
    rw [pmfEnd_natCast]
    omega
  have hν : hypergeomLogNumerator (n : ℝ) (n : ℝ) (y : ℝ)
      = logfactorial (n : ℝ) + logfactorial (y : ℝ) + logfactorial 0
        + logfactorial ((n : ℝ) - (y : ℝ)) := by
    unfold hypergeomLogNumerator
    rw [show (n : ℝ) - (n : ℝ) = 0 by ring]
  have hd : hypergeomLogDenominator (n : ℝ) (n : ℝ) (y : ℝ) (((y : ℤ) : ℤ) : ℝ)
      = logfactorial (n : ℝ) + logfactorial (y : ℝ) + logfactorial ((n : ℝ) - (y : ℝ))
        + logfactorial 0 + logfactorial 0 := by
    unfold hypergeomLogDenominator
    push_cast
    rw [show (y : ℝ) - (y : ℝ) = 0 by ring,
      show (n : ℝ) - (n : ℝ) - (y : ℝ) + (y : ℝ) = 0 by ring]
  have harg : hypergeomLogNumerator (n : ℝ) (n : ℝ) (y : ℝ)
      - hypergeomLogDenominator (n : ℝ) (n : ℝ) (y : ℝ) (((y : ℤ) : ℤ) : ℝ) = 0 := by
    rw [hν, hd, logfactorial_zero]
    ring
  unfold hypergeometric_pmf
  rw [hs, he, show ((y : ℤ) - (y : ℤ) + 1).toNat = 0 + 1 by omega, pmfLoop_succ,
    pmfLoop_zero, harg, Real.exp_zero]

/-- C6 (amended): for integral counts with `x_i = n` and `0 < y_j ≤ n`, the
support is the single point `[y_j, y_j]` with PMF value exactly `1.0`, and the
EMI collapses to the single-term value `y_j * log2(n*y_j/(n*y_j)) * 1.0`
(which is `0`, since the argument of `log2` is `1`). -/
theorem emi_x_eq_n_collapse (n y_j : ℕ) (hy : 0 < y_j) (hyn : y_j ≤ n) :
    hypergeometric_pmf (n : ℝ) (n : ℝ) (y_j : ℝ) = [((y_j : ℤ), 1)]
    ∧ calculate_partial_expected_mutual_information (n : ℝ) (n : ℝ) (y_j : ℝ)
        = some ((y_j : ℝ)
            * Real.logb 2 ((n : ℝ) * (y_j : ℝ) / ((n : ℝ) * (y_j : ℝ))) * 1) := by
  have hpmf := hypergeometric_pmf_x_eq_n n y_j hy hyn
  have hy0 : ((y_j : ℕ) : ℤ) ≠ 0 := by omega
  have hyR : (0 : ℝ) < (y_j : ℝ) := by exact_mod_cast hy
  have hnR : (0 : ℝ) < (n : ℝ) := by exact_mod_cast lt_of_lt_of_le hy hyn
  refine ⟨hpmf, ?_⟩
  have hsum : sum_probability (n : ℝ) (n : ℝ) (y_j : ℝ) = 1 := by
    simp only [sum_probability, hpmf, List.map_cons, List.map_nil, List.sum_cons,
      List.sum_nil]
    norm_num
  rw [emi_eq, hsum, if_neg one_ne_zero, hpmf]
  simp only [List.map_cons, List.map_nil, List.sum_cons, List.sum_nil, if_neg hy0]
  rw [show (n : ℝ) * (y_j : ℝ) / ((n : ℝ) * (y_j : ℝ)) = 1 from
      div_self (mul_ne_zero hnR.ne' hyR.ne'), Real.logb_one]
  refine congrArg some ?_
  push_cast
  ring

theorem emi_x_eq_n_collapse_witness :
    0 < 3 ∧ 3 ≤ 5 ∧
      (hypergeometric_pmf ((5 : ℕ) : ℝ) ((5 : ℕ) : ℝ) ((3 : ℕ) : ℝ) = [((3 : ℤ), 1)]
        ∧ calculate_partial_expected_mutual_information ((5 : ℕ) : ℝ) ((5 : ℕ) : ℝ) ((3 : ℕ) : ℝ)
            = some (((3 : ℕ) : ℝ)
                * Real.logb 2 (((5 : ℕ) : ℝ) * ((3 : ℕ) : ℝ) / (((5 : ℕ) : ℝ) * ((3 : ℕ) : ℝ)))
                * 1)) := by
  refine ⟨by norm_num, by norm_num, ?_⟩
  have h := emi_x_eq_n_collapse 5 3 (by norm_num) (by norm_num)
  exact_mod_cast h

/-- C6 as literally stated is false: at `n = 4`, `x_i = 4`, `y_j = 2` the
claimed single-term value `y_j * log2(n/y_j) * 1.0 = 2 * log2(2) = 2`, but the
function returns `0` (the coefficient and `log2(n_ij)` cancel when `x_i = n`). -/
theorem emi_x_eq_n_counterexample :
    calculate_partial_expected_mutual_information 4 4 2
      ≠ some ((2 : ℝ) * Real.logb 2 ((4 : ℝ) / 2) * 1) := by
  have h := hypergeometric_pmf_x_eq_n 4 2 (by norm_num) (by norm_num)
  have hpmf : hypergeometric_pmf 4 4 2 = [((2 : ℤ), 1)] := by exact_mod_cast h
  have hsum : sum_probability 4 4 2 = 1 := by
    simp only [sum_probability, hpmf, List.map_cons, List.map_nil, List.sum_cons,
      List.sum_nil]
    norm_num
  rw [emi_eq, hsum, if_neg one_ne_zero, hpmf]
  simp only [List.map_cons, List.map_nil, List.sum_cons, List.sum_nil,
    if_neg (by norm_num : ¬((2 : ℤ) = 0))]
  rw [show ((2 : ℤ) : ℝ) * ((-Real.logb 2 4 - Real.logb 2 2 + Real.logb 2 4)
      + Real.logb 2 ((2 : ℤ) : ℝ)) * 1 = 0 by push_cast; ring]
  rw [show (4 : ℝ) / 2 = 2 by norm_num, Real.logb_self_eq_one (by norm_num : (1 : ℝ) < 2)]
  norm_num

end InfoTheory
